import Mathlib

/-!
Verification of the shastity backup engine's specification against its
Python source (`src/shastity/...`).

Modelling conventions:
* Python byte strings (`str` in this Python-2 code base) are `List Nat`
  with every element `< 256`.
* Fallible Python code (code that can raise) is modelled with
  `Except PyErr`.
* The AES block transform itself comes from the external PyCrypto
  library and is therefore modelled as an abstract keyed block-cipher
  parameter (`E`/`D : List Nat → List Nat → List Nat`); the CBC
  chaining, zero IV, padding, hex rendering and length-prefix logic are
  embedded concretely from `gpgcrypto.py`.
* The gpg subprocess (`enc`/`dec` in `gpgcrypto.py`) is an external
  collaborator and is likewise an abstract parameter.
-/

/-- Errors raised by the modelled Python code.  `cryptoFail` stands for
the bare-string raise in `NameCrypto.__dec` (in Python ≥ 2.6 a bare
string raise surfaces as `TypeError`; the spec calls the intended error
`CryptoIntegrityError`). -/
inductive PyErr where
  | cryptoFail
  | valueError
  | structError
  | nameError
  | keyError
  | attributeError
  | assertionError
  | typeError
  | notImplementedError
  | notFound
  deriving DecidableEq, Repr

/-- Bytewise xor of two byte strings (truncating to the shorter, as
`zipWith` does; all real uses are on equal-length 16-byte blocks). -/
def xorB (a b : List Nat) : List Nat :=
  List.zipWith (fun x y => x ^^^ y) a b

/-- struct.pack("!l", n): 4-byte big-endian encoding of a length.
Faithful for 0 ≤ n < 2^31 (outside that range the Python call raises,
which the theorems exclude by hypothesis). -/
def pack4 (n : Nat) : List Nat :=
  [n / 2 ^ 24 % 256, n / 2 ^ 16 % 256, n / 2 ^ 8 % 256, n % 256]

/-- struct.unpack("!l", b): big-endian signed 32-bit read of the first
four bytes. -/
def signed32 (b : List Nat) : Int :=
  let u : Nat := (((b.headD 0 * 256 + (b.drop 1).headD 0) * 256
              + (b.drop 2).headD 0) * 256 + (b.drop 3).headD 0) % 2 ^ 32
  if u < 2 ^ 31 then (u : Int) else (u : Int) - 2 ^ 32

/-- Lowercase hex digit of a value below 16, as an ASCII code
('0'..'9' then 'a'..'f'), as produced by Python's "%.2x". -/
def hexDigit (n : Nat) : Nat :=
  if n < 10 then 48 + n else 87 + n

/-- NameCrypto.__enc's hex rendering: two lowercase hex digits per
byte ("%.2x" % ord(x)), as ASCII codes. -/
def hexEncode (bs : List Nat) : List Nat :=
  bs.flatMap fun b => [hexDigit (b / 16), hexDigit (b % 16)]

/-- int(x, 16) on one character: value of a hex digit, accepting
'0'-'9', 'a'-'f' and 'A'-'F', otherwise ValueError. -/
def hexVal (c : Nat) : Except PyErr Nat :=
  if 48 ≤ c ∧ c ≤ 57 then .ok (c - 48)
  else if 97 ≤ c ∧ c ≤ 102 then .ok (c - 87)
  else if 65 ≤ c ∧ c ≤ 70 then .ok (c - 55)
  else .error .valueError

/-- NameCrypto.__dec's hex parsing: re.findall('(..)', cfn) takes
consecutive character pairs (a trailing odd character is dropped by the
regex) and int(x, 16) turns each pair into a byte. -/
def hexDecode : List Nat → Except PyErr (List Nat)
  | [] => .ok []
  | [_] => .ok []
  | c1 :: c2 :: rest => do
      let h ← hexVal c1
      let l ← hexVal c2
      let r ← hexDecode rest
      .ok ((h * 16 + l) :: r)

/-- Fuel-driven worker for `chunk16` (structural recursion on the fuel
so that concrete inputs evaluate inside the kernel; the fuel is always
at least the list length). -/
def chunk16F : Nat → List Nat → List (List Nat)
  | _, [] => []
  | 0, _ :: _ => []
  | fuel + 1, x :: xs => (x :: xs).take 16 :: chunk16F fuel ((x :: xs).drop 16)

/-- Split a byte string into successive 16-byte blocks (the last block
may be shorter if the length is not a multiple of 16). -/
def chunk16 (l : List Nat) : List (List Nat) := chunk16F l.length l

/-- CBC-mode encryption as performed by PyCrypto's
`AES.new(key, AES.MODE_CBC).encrypt`: each plaintext block is xored
with the previous ciphertext block (initially the IV) and passed
through the block transform `E`. -/
def cbcEncBlocks (E : List Nat → List Nat) (prev : List Nat) :
    List (List Nat) → List (List Nat)
  | [] => []
  | p :: ps =>
      let c := E (xorB prev p)
      c :: cbcEncBlocks E c ps

/-- CBC-mode decryption (`.decrypt`): each ciphertext block goes
through the inverse block transform `D` and is xored with the previous
ciphertext block (initially the IV). -/
def cbcDecBlocks (D : List Nat → List Nat) (prev : List Nat) :
    List (List Nat) → List (List Nat)
  | [] => []
  | c :: cs => xorB prev (D c) :: cbcDecBlocks D c cs

/-- The all-zero IV that old PyCrypto uses when `AES.new` is given no
explicit IV (a fresh cipher object is created per call, so every
encryption and decryption starts from this IV). -/
def zeroIV : List Nat := List.replicate 16 0

/-- The plaintext buffer built by `NameCrypto.__enc`:
`struct.pack("!l", len(name)) + name`, padded with spaces (0x20) to a
multiple of the 16-byte AES block size only when the length is not
already a multiple (the source's `if len(s) % 16:` guard). -/
def padName (n : List Nat) : List Nat :=
  let s := pack4 n.length ++ n
  if s.length % 16 ≠ 0 then s ++ List.replicate (16 - s.length % 16) 32
  else s

/-- NameCrypto.__enc: AES-CBC encrypt (under the first 16 bytes of the
stored crypto key, zero IV) the length-prefixed padded name, and render
the ciphertext as lowercase hex.  `E` is the abstract keyed AES block
transform. -/
def nameEnc (E : List Nat → List Nat → List Nat) (cryptoKey : List Nat)
    (n : List Nat) : List Nat :=
  hexEncode ((cbcEncBlocks (E (cryptoKey.take 16)) zeroIV
                (chunk16 (padName n))).flatten)

/-- NameCrypto.__dec: hex-decode the ciphertext name (ValueError on a
non-hex digit), AES-CBC decrypt it (PyCrypto raises ValueError unless
the input length is a multiple of 16), read the 4-byte big-endian
signed length prefix (struct.error if fewer than 4 bytes were decoded),
check `0 < l < len(dec)` (raising the source's bare-string error —
`cryptoFail` here — otherwise), and return `dec[4:4+l]`. -/
def nameDec (D : List Nat → List Nat → List Nat) (cryptoKey : List Nat)
    (cfn : List Nat) : Except PyErr (List Nat) :=
  match hexDecode cfn with
  | .error e => .error e
  | .ok s =>
      if s.length % 16 ≠ 0 then .error .valueError
      else
        let buf := (cbcDecBlocks (D (cryptoKey.take 16)) zeroIV
                      (chunk16 s)).flatten
        if buf.length < 4 then .error .structError
        else
          let l := signed32 (buf.take 4)
          if 0 < l ∧ l < (buf.length : Int) then
            .ok ((buf.drop 4).take l.toNat)
          else .error .cryptoFail

/-! Concrete block-cipher instances used to instantiate the abstract
AES parameter in witnesses and counterexamples.  They satisfy the same
block-cipher interface the theorems assume of AES (a length-preserving
self-inverse byte permutation on 16-byte blocks). -/

/-- A keyed xor stream: a simple involutive block cipher standing in
for AES in witnesses. -/
def xorCipher (k b : List Nat) : List Nat := xorB b (k.take 16)

/-- The identity block transform (used to build concrete
counterexample ciphertexts whose decryption is transparent). -/
def idCipher (_k b : List Nat) : List Nat := b

/-- A concrete 16-byte key. -/
def keyA : List Nat := [3, 10, 17, 24, 31, 38, 45, 52, 59, 66, 73, 80, 87, 94, 101, 108]

/-- `keyA` with its fourth byte flipped in the lowest bit: a wrong
key. -/
def keyB : List Nat := [3, 10, 17, 25, 31, 38, 45, 52, 59, 66, 73, 80, 87, 94, 101, 108]

/-- The decrypted buffer `dec = crypt.decrypt(s)` inside
`NameCrypto.__dec`, for an already hex-decoded ciphertext `s`. -/
def decBuf (D : List Nat → List Nat → List Nat) (cryptoKey s : List Nat) :
    List Nat :=
  (cbcDecBlocks (D (cryptoKey.take 16)) zeroIV (chunk16 s)).flatten

/-- Hex-decoded ciphertext used to instantiate `C2_dec_validation`. -/
def c2s : List Nat := [0, 0, 0, 1] ++ List.replicate 12 7

/-- Modelled from the spec: the repository's `shastity.hash` module is
not under src/ (only its caller `NameCrypto.__init__`, which computes
`hash.make_hasher('sha512')(cryptoKey)[1]`).  Per the spec the name
layer derives its key by hashing the shared secret once with SHA-512;
the hash function itself is the abstract parameter `sha512` and the
derived crypto key is its digest. -/
def nameCryptoKey (sha512 : List Nat → List Nat) (secret : List Nat) :
    List Nat :=
  sha512 secret

/-- Padding as the spec words it: pad the length-prefixed name up to a
multiple of the cipher's 16-byte block size. -/
def padSpec (s : List Nat) : List Nat :=
  s ++ List.replicate ((16 - s.length % 16) % 16) 32

/-- Name encryption as §4.2 of the spec words it: key = first 128 bits
(16 bytes) of the SHA-512 hash of the shared secret; plaintext =
4-byte network-byte-order length prefix ++ name bytes, padded to the
block size; ciphertext = CBC encryption of that plaintext; output =
lowercase hex. -/
def nameEncSpec (E : List Nat → List Nat → List Nat)
    (sha512 : List Nat → List Nat) (secret n : List Nat) : List Nat :=
  hexEncode ((cbcEncBlocks (E ((sha512 secret).take 16)) zeroIV
    (chunk16 (padSpec (pack4 n.length ++ n)))).flatten)

/-- Decidable equality of results, so concrete evaluations can be
settled by `decide`. -/
instance {ε α : Type} [DecidableEq ε] [DecidableEq α] :
    DecidableEq (Except ε α) := fun a b =>
  match a, b with
  | .error e, .error f =>
      if h : e = f then .isTrue (by rw [h])
      else .isFalse (by intro hc; cases hc; exact h rfl)
  | .error _, .ok _ => .isFalse (by intro hc; cases hc)
  | .ok _, .error _ => .isFalse (by intro hc; cases hc)
  | .ok x, .ok y =>
      if h : x = y then .isTrue (by rw [h])
      else .isFalse (by intro hc; cases hc; exact h rfl)

/-- Dynamically typed Python values, as far as the modelled code needs
them: None, booleans, integers, strings and 2-tuples.  Python's `==`
between values of different shapes (e.g. a tuple and a string) is
False, which is exactly propositional disequality of distinct
constructors here. -/
inductive PyVal where
  | vNone
  | vBool (b : Bool)
  | vInt (n : Int)
  | vStr (s : String)
  | vTup (a b : PyVal)
  deriving DecidableEq, Repr

/-- Python truthiness for the values above. -/
def truthy : PyVal → Bool
  | .vNone => false
  | .vBool b => b
  | .vInt n => n ≠ 0
  | .vStr s => s ≠ ""
  | .vTup _ _ => true

/-- A backend object (`backend.Backend` interface): the four
operations, each taking a Python argument list (so that delegation
with `*args` — including calls with the wrong arity — is
representable).  `list` returns a list of names.  A call with the
wrong number of arguments is a `TypeError`, as in Python. -/
structure PyBackend where
  put : List PyVal → Except PyErr PyVal
  get : List PyVal → Except PyErr PyVal
  list : List PyVal → Except PyErr (List PyVal)
  delete : List PyVal → Except PyErr PyVal

/-- `BackendWrapper` from gpgcrypto.py, exactly as written: `put`
delegates to `next.put`, `get` delegates to `next.put` (the source
line is `return self.next.put(*args)`), `list` delegates to
`next.list`, and `delete` is not overridden at all, so it resolves to
the abstract `backend.Backend.delete`, which raises
NotImplementedError. -/
def backendWrapper (next : PyBackend) : PyBackend where
  put := next.put
  get := next.put
  list := next.list
  delete := fun _ => .error .notImplementedError

/-- A concrete well-behaved inner backend holding the single object
'x' -> 'data' (put/delete acknowledge with None; wrong arity is a
TypeError). -/
def innerBE : PyBackend where
  put := fun args =>
    match args with
    | [PyVal.vStr _, PyVal.vStr _] => .ok PyVal.vNone
    | _ => .error .typeError
  get := fun args =>
    match args with
    | [PyVal.vStr n] => if n = "x" then .ok (PyVal.vStr "data") else .error .notFound
    | _ => .error .typeError
  list := fun args =>
    match args with
    | [] => .ok [PyVal.vStr "x"]
    | _ => .error .typeError
  delete := fun args =>
    match args with
    | [PyVal.vStr _] => .ok PyVal.vNone
    | _ => .error .typeError

/-- The printing loop of `list_orphans` in commands.py, returning the
list of hashes it prints: each hash from the data backend's listing is
printed unless the tuple ('sha512', hash) is an element of
`all_blocks` — the listing itself — which is what the source's
`if (algo, hash) not in all_blocks` tests (the computed `mf_blocks` is
never consulted). -/
def listOrphans (all_blocks : List String) : List String :=
  all_blocks.filter fun h =>
    !decide (PyVal.vTup (PyVal.vStr "sha512") (PyVal.vStr h)
      ∈ all_blocks.map PyVal.vStr)

/-- Orphan listing as the spec words it: blocks present in the data
backend's listing but absent from the union of all manifests' block
sets. -/
def orphansSpec (all_blocks : List String)
    (mf_blocks : List (String × String)) : List String :=
  all_blocks.filter fun h => !decide (("sha512", h) ∈ mf_blocks)

/-- Python str.strip()'s whitespace set. -/
def isPySpace (c : Nat) : Bool :=
  c = 32 || c = 9 || c = 10 || c = 13 || c = 11 || c = 12

/-- hash.strip(): remove leading and trailing whitespace. -/
def pystrip (s : List Nat) : List Nat :=
  ((s.dropWhile isPySpace).reverse.dropWhile isPySpace).reverse

/-- The Python string 'sha512' as bytes. -/
def sha512Bytes : List Nat := [115, 104, 97, 53, 49, 50]

/-- The skip-blocks loading loop in `persist` (commands.py): for each
line, strip it; if the stripped length is 512/4 = 128 assign
`alg = 'sha512'`; then append `(alg, hash)`.  `alg` starts unbound, so
appending before any 128-character line raises (UnboundLocalError, a
NameError). -/
def loadSkipAux (alg : Option (List Nat)) :
    List (List Nat) → Except PyErr (List (List Nat × List Nat))
  | [] => .ok []
  | line :: rest =>
      let h := pystrip line
      let alg' := if h.length = 128 then some sha512Bytes else alg
      match alg' with
      | Option.none => .error .nameError
      | some a =>
          match loadSkipAux alg' rest with
          | .error e => .error e
          | .ok l => .ok ((a, h) :: l)

/-- Loading a whole skip-blocks file (as its list of raw lines). -/
def loadSkipBlocks (lines : List (List Nat)) :
    Except PyErr (List (List Nat × List Nat)) :=
  loadSkipAux Option.none lines

/-- Association-list lookup (Python dict read). -/
def dlookup {κ ν : Type} [DecidableEq κ] : List (κ × ν) → κ → Option ν
  | [], _ => Option.none
  | (k', v) :: rest, k => if k = k' then some v else dlookup rest k

/-- Association-list update (Python dict write): replace the value in
place if the key exists, else append the new binding. -/
def dictSet {κ ν : Type} [DecidableEq κ] : List (κ × ν) → κ → ν → List (κ × ν)
  | [], k, v => [(k, v)]
  | (k', v') :: rest, k, v =>
      if k' = k then (k, v) :: rest else (k', v') :: dictSet rest k v

/-- A `FileMetaData` object (metadata.py): its `__dict__` of
non-underscore attributes, and the `_FileMetaData__write_protected`
flag (an underscore attribute, modelled separately). -/
structure FileMetaData where
  dict : List (String × PyVal)
  writeProtected : Bool
  deriving DecidableEq, Repr

/-- Python's key.startswith('_'): the first character is an
underscore (stated on the character list, which the kernel can
evaluate). -/
def startsUnderscore (k : String) : Bool := k.data.head? = some (Char.ofNat 95)

/-- `FileMetaData.__setattr__`: once `__write_protected` is set, any
write to an attribute whose name does not start with an underscore
raises AssertionError; other writes go to `__dict__`. -/
def fmdSetattr (st : FileMetaData) (k : String) (v : PyVal) :
    Except PyErr FileMetaData :=
  if ¬ startsUnderscore k ∧ st.writeProtected then .error .assertionError
  else .ok { st with dict := dictSet st.dict k v }

/-- Python getattr on the instance dict (AttributeError if absent). -/
def getattrE (st : FileMetaData) (k : String) : Except PyErr PyVal :=
  match dlookup st.dict k with
  | some v => .ok v
  | Option.none => .error .attributeError

/-- `FileMetaData.propnames` exactly as in the source — note
'yser_read' where 'user_read' was clearly intended. -/
def propnames : List String :=
  [ "is_directory", "is_character_device", "is_block_device",
    "is_regular", "is_fifo", "is_symlink", "uid", "gid", "size",
    "atime", "mtime", "ctime", "is_setuid", "is_setgid", "is_sticky",
    "yser_read", "group_read", "other_read", "user_write",
    "group_write", "other_write", "user_execute", "group_execute",
    "other_execute" ]

/-- `FileMetaData.__init__`: start write-unprotected, initialize every
propname (from `other` if given, else to None), overlay the `props`
dict, then flip the write-protection flag. -/
def fmdInit (props : List (String × PyVal)) (other : Option FileMetaData) :
    Except PyErr FileMetaData := do
  let st0 : FileMetaData := { dict := [], writeProtected := false }
  let st1 ← match other with
    | some o =>
        propnames.foldlM (fun st p => do
          let v ← getattrE o p
          fmdSetattr st p v) st0
    | Option.none => propnames.foldlM (fun st p => fmdSetattr st p PyVal.vNone) st0
  let st2 ← props.foldlM (fun st kv => fmdSetattr st kv.1 kv.2) st1
  .ok { st2 with writeProtected := true }

/-- The `__dict__` produced by initializing all propnames to None. -/
def fmdBaseDict : List (String × PyVal) :=
  propnames.foldl (fun d p => dictSet d p PyVal.vNone) []

/-- The `__dict__` produced by `__init__(props)` (no `other`). -/
def fmdDictOf (props : List (String × PyVal)) : List (String × PyVal) :=
  props.foldl (fun d kv => dictSet d kv.1 kv.2) fmdBaseDict

/-- `FileMetaData.__getitem__`: KeyError unless the key is listed in
`propnames`; otherwise an attribute read. -/
def fmdGetitem (st : FileMetaData) (k : String) : Except PyErr PyVal :=
  if k ∈ propnames then getattrE st k else .error .keyError

/-- One 'r'/'w' position of mode_to_str: the permission flag lookup
and the resulting character. -/
def permBit (d : FileMetaData) (name ch : String) : Except PyErr String := do
  let v ← fmdGetitem d name
  if truthy v then .ok ch else .ok "-"

/-- One execute position of mode_to_str: the execute flag and the
corresponding setuid/setgid/sticky flag ('s'/'x'/'S'/'-' pattern in
the source, 't'/'T' for the sticky variant). -/
def execBit (d : FileMetaData) (execName flagName sCh bigSCh : String) :
    Except PyErr String := do
  let e ← fmdGetitem d execName
  let f ← fmdGetitem d flagName
  if truthy e then (if truthy f then .ok sCh else .ok "x")
  else (if truthy f then .ok bigSCh else .ok "-")

/-- The file-type character of mode_to_str  (the if/elif chain,
AssertionError when no type flag is truthy). -/
def typeChar (d : FileMetaData) : Except PyErr String := do
  let vr ← fmdGetitem d "is_regular"
  if truthy vr then .ok "-"
  else do
    let vb ← fmdGetitem d "is_block_device"
    if truthy vb then .ok "b"
    else do
      let vc ← fmdGetitem d "is_character_device"
      if truthy vc then .ok "c"
      else do
        let vd ← fmdGetitem d "is_directory"
        if truthy vd then .ok "d"
        else do
          let vl ← fmdGetitem d "is_symlink"
          if truthy vl then .ok "l"
          else do
            let vf ← fmdGetitem d "is_fifo"
            if truthy vf then .ok "p"
            else .error .assertionError

/-- metadata.mode_to_str, subscripting a FileMetaData (so every
`d[...]` goes through `__getitem__`): type character, early return for
symlinks, then the nine permission positions. -/
def mode_to_str (d : FileMetaData) : Except PyErr String := do
  let tc ← typeChar d
  let sym ← fmdGetitem d "is_symlink"
  if truthy sym then .ok (tc ++ "rwxr-xr-x")
  else do
    let ur ← permBit d "user_read" "r"
    let uw ← permBit d "user_write" "w"
    let ux ← execBit d "user_execute" "is_setuid" "s" "S"
    let gr ← permBit d "group_read" "r"
    let gw ← permBit d "group_write" "w"
    let gx ← execBit d "group_execute" "is_setgid" "s" "S"
    let xr ← permBit d "other_read" "r"
    let xw ← permBit d "other_write" "w"
    let xx ← execBit d "other_execute" "is_sticky" "t" "T"
    .ok (tc ++ ur ++ uw ++ ux ++ gr ++ gw ++ gx ++ xr ++ xw ++ xx)

/-- The loop of `uniq_c` (commands.py): state is the current run
count, the last element seen, and the accumulated output; the final
run is appended after the loop (the source's `if not first`). -/
def uniqCLoop {α : Type} [DecidableEq α] :
    List α → Nat → α → List (Nat × α) → List (Nat × α)
  | [], count, last, ret => ret ++ [(count, last)]
  | x :: xs, count, last, ret =>
      if x = last then uniqCLoop xs (count + 1) last ret
      else uniqCLoop xs 1 x (ret ++ [(count, last)])

/-- commands.uniq_c: run-length encode a list; the empty list stays
empty (`first` never flips). -/
def uniq_c {α : Type} [DecidableEq α] : List α → List (Nat × α)
  | [] => []
  | x :: xs => uniqCLoop xs 1 x []

/-- Expand a run-length encoding back into the list it encodes. -/
def rleDecode {α : Type} (l : List (Nat × α)) : List α :=
  (l.map fun p => List.replicate p.1 p.2).flatten

/-- Modelled from the spec: the raw storage backend.  `S3Backend`'s
module (`shastity.backends.s3backend`) is not under src/; §4.1 gives
its contract — put/get/list keyed by opaque names over one namespace.
State is the name→data association in insertion order; put overwrites
an existing name, get of an absent name is NotFoundError. -/
def rawPut (st : List (List Nat × List Nat)) (n d : List Nat) :
    List (List Nat × List Nat) :=
  dictSet st n d

/-- Modelled from the spec: raw backend get (see `rawPut`). -/
def rawGet (st : List (List Nat × List Nat)) (n : List Nat) :
    Except PyErr (List Nat) :=
  match dlookup st n with
  | some v => .ok v
  | Option.none => .error .notFound

/-- Modelled from the spec: raw backend list (see `rawPut`). -/
def rawList (st : List (List Nat × List Nat)) : List (List Nat) :=
  st.map (·.1)

/-- `DataCryptoGPG.put`: encrypt the content (gpg, modelled by the
abstract keyed `gpgE`) and delegate under the unchanged name. -/
def dgPut (gpgE : List Nat → List Nat → List Nat) (ck : List Nat)
    (st : List (List Nat × List Nat)) (n d : List Nat) :
    List (List Nat × List Nat) :=
  rawPut st n (gpgE ck d)

/-- `DataCryptoGPG.get`: delegate, then decrypt the content. -/
def dgGet (gpgD : List Nat → List Nat → List Nat) (ck : List Nat)
    (st : List (List Nat × List Nat)) (n : List Nat) :
    Except PyErr (List Nat) :=
  match rawGet st n with
  | .ok v => .ok (gpgD ck v)
  | .error e => .error e

/-- `DataCryptoGPG.list`: inherited from BackendWrapper — plain
delegation. -/
def dgList (st : List (List Nat × List Nat)) : List (List Nat) :=
  rawList st

/-- `NameCrypto.put` over the DataCryptoGPG layer: encrypt the name,
delegate. -/
def ncPut (E gpgE : List Nat → List Nat → List Nat) (nk ck : List Nat)
    (st : List (List Nat × List Nat)) (n d : List Nat) :
    List (List Nat × List Nat) :=
  dgPut gpgE ck st (nameEnc E nk n) d

/-- `NameCrypto.get` over the DataCryptoGPG layer. -/
def ncGet (E gpgD : List Nat → List Nat → List Nat) (nk ck : List Nat)
    (st : List (List Nat × List Nat)) (n : List Nat) :
    Except PyErr (List Nat) :=
  dgGet gpgD ck st (nameEnc E nk n)

/-- The list comprehension in `NameCrypto.list`: decrypt every listed
name, raising on the first failure. -/
def listDecAll (D : List Nat → List Nat → List Nat) (nk : List Nat) :
    List (List Nat) → Except PyErr (List (List Nat))
  | [] => .ok []
  | c :: cs =>
      match nameDec D nk c with
      | .error e => .error e
      | .ok n =>
          match listDecAll D nk cs with
          | .error e => .error e
          | .ok ns => .ok (n :: ns)

/-- `NameCrypto.list` over the DataCryptoGPG layer. -/
def ncList (D : List Nat → List Nat → List Nat) (nk : List Nat)
    (st : List (List Nat × List Nat)) : Except PyErr (List (List Nat)) :=
  listDecAll D nk (dgList st)

/-- The state of the raw backend after a sequence of put operations
through the whole `NameCrypto(DataCryptoGPG(raw))` stack (the
composition `get_backend_factory` builds), starting empty. -/
def composedState (E gpgE : List Nat → List Nat → List Nat)
    (nk ck : List Nat) (pairs : List (List Nat × List Nat)) :
    List (List Nat × List Nat) :=
  pairs.foldl (fun st p => ncPut E gpgE nk ck st p.1 p.2) []

/-- A keyed bytewise xor standing in for the external gpg pipe in
witnesses (an involutive content cipher). -/
def gpgXor (k d : List Nat) : List Nat :=
  d.map fun x => x ^^^ (k.headD 0)

/-- A concrete metadata instance describing a regular file (all other
type flags false). -/
def fmdRegular : FileMetaData :=
  ⟨[("is_regular", PyVal.vBool true), ("is_block_device", PyVal.vBool false),
    ("is_character_device", PyVal.vBool false),
    ("is_directory", PyVal.vBool false), ("is_symlink", PyVal.vBool false),
    ("is_fifo", PyVal.vBool false)], true⟩


/-! Basic lemmas about the byte-level helpers. -/

theorem chunk16F_nil (fuel : Nat) : chunk16F fuel [] = [] := by
  cases fuel <;> rfl

theorem chunk16F_eq : ∀ (fuel : Nat) (l : List Nat), l.length ≤ fuel →
    chunk16F fuel l = chunk16F l.length l := by
  intro fuel
  induction fuel using Nat.strong_induction_on with
  | _ fuel ih =>
      intro l hl
      cases l with
      | nil => rw [chunk16F_nil, chunk16F_nil]
      | cons x xs =>
          cases fuel with
          | zero => simp at hl
          | succ fuel =>
              have hxs : xs.length ≤ fuel := by
                simpa using hl
              have hd : (List.drop 16 (x :: xs)).length ≤ xs.length := by
                simp only [List.length_drop, List.length_cons]
                omega
              show _ :: chunk16F fuel (List.drop 16 (x :: xs))
                  = _ :: chunk16F xs.length (List.drop 16 (x :: xs))
              by_cases hf : fuel = xs.length
              · rw [hf]
              · congr 1
                rw [ih fuel (by omega) _ (le_trans hd hxs),
                  ih xs.length (by omega) _ hd]

theorem chunk16_nil : chunk16 [] = [] := rfl

theorem chunk16_cons (x : Nat) (xs : List Nat) :
    chunk16 (x :: xs) = (x :: xs).take 16 :: chunk16 ((x :: xs).drop 16) := by
  show _ :: chunk16F xs.length (List.drop 16 (x :: xs)) = _
  congr 1
  rw [chunk16F_eq xs.length _ (by simp only [List.length_drop, List.length_cons]; omega)]
  rfl

/-- Induction along the block structure of `chunk16`. -/
theorem chunk16_ind (P : List Nat → Prop) (h0 : P [])
    (h1 : ∀ x xs, P (List.drop 16 (x :: xs)) → P (x :: xs)) : ∀ l, P l := by
  have key : ∀ (fuel : Nat) (l : List Nat), l.length ≤ fuel → P l := by
    intro fuel
    induction fuel with
    | zero =>
        intro l hl
        cases l with
        | nil => exact h0
        | cons x xs => simp at hl
    | succ fuel ih =>
        intro l hl
        cases l with
        | nil => exact h0
        | cons x xs =>
            refine h1 x xs (ih _ ?_)
            simp only [List.length_drop, List.length_cons]
            simp only [List.length_cons] at hl
            omega
  exact fun l => key l.length l le_rfl


theorem hexVal_hexDigit {n : Nat} (h : n < 16) : hexVal (hexDigit n) = .ok n := by
  unfold hexVal hexDigit
  rcases Nat.lt_or_ge n 10 with h10 | h10
  · simp only [if_pos h10]
    rw [if_pos ⟨by omega, by omega⟩]
    congr 1
    omega
  · simp only [if_neg (by omega : ¬ n < 10)]
    rw [if_neg (by omega : ¬ (48 ≤ 87 + n ∧ 87 + n ≤ 57)),
        if_pos ⟨by omega, by omega⟩]
    congr 1
    omega

theorem hexDecode_hexEncode {bs : List Nat} (h : ∀ b ∈ bs, b < 256) :
    hexDecode (hexEncode bs) = .ok bs := by
  induction bs with
  | nil => rfl
  | cons b rest ih =>
      have hb : b < 256 := h b (by simp)
      have hhi : b / 16 < 16 := by omega
      have hlo : b % 16 < 16 := by omega
      have hrest : hexDecode (hexEncode rest) = .ok rest :=
        ih fun x hx => h x (by simp [hx])
      simp only [hexEncode, List.flatMap_cons]
      show hexDecode (hexDigit (b / 16) :: hexDigit (b % 16) :: hexEncode rest) = _
      rw [hexDecode]
      rw [hexVal_hexDigit hhi, hexVal_hexDigit hlo]
      simp only [bind, Except.bind, hexEncode] at hrest ⊢
      rw [hrest]
      have : b / 16 * 16 + b % 16 = b := by omega
      simp [this]

theorem xorB_length (a b : List Nat) :
    (xorB a b).length = min a.length b.length := by
  simp [xorB]

theorem xorB_xorB {a b : List Nat} (h : a.length = b.length) :
    xorB a (xorB a b) = b := by
  induction a generalizing b with
  | nil => cases b with
    | nil => rfl
    | cons y ys => simp at h
  | cons x xs ih =>
      cases b with
      | nil => simp at h
      | cons y ys =>
          have h' : xs.length = ys.length := by simpa using h
          simp only [xorB, List.zipWith_cons_cons]
          rw [Nat.xor_cancel_left]
          exact congrArg _ (ih h')

theorem xorB_lt {a b : List Nat} (ha : ∀ x ∈ a, x < 256)
    (hb : ∀ x ∈ b, x < 256) : ∀ x ∈ xorB a b, x < 256 := by
  induction a generalizing b with
  | nil => simp [xorB]
  | cons x xs ih =>
      cases b with
      | nil => simp [xorB]
      | cons y ys =>
          intro z hz
          simp only [xorB, List.zipWith_cons_cons, List.mem_cons] at hz
          rcases hz with hz | hz
          · subst hz
            have : (256 : Nat) = 2 ^ 8 := rfl
            rw [this]
            exact Nat.xor_lt_two_pow (by simpa using ha x (by simp))
              (by simpa using hb y (by simp))
          · exact ih (fun u hu => ha u (by simp [hu]))
              (fun u hu => hb u (by simp [hu])) z hz

theorem chunk16_flatten (s : List Nat) : (chunk16 s).flatten = s := by
  induction s using chunk16_ind with
  | h0 => rw [chunk16_nil]; rfl
  | h1 x xs ih =>
      rw [chunk16_cons]
      simp only [List.flatten_cons, ih, List.take_append_drop]

theorem chunk16_blocklen : ∀ (s : List Nat), s.length % 16 = 0 →
    ∀ b ∈ chunk16 s, b.length = 16 := by
  intro s
  induction s using chunk16_ind with
  | h0 => intro _; rw [chunk16_nil]; simp
  | h1 x xs ih =>
      intro h
      rw [chunk16_cons]
      intro b hb
      rcases List.mem_cons.1 hb with hb | hb
      · subst hb
        simp only [List.length_take, List.length_cons]
        simp only [List.length_cons] at h
        omega
      · refine ih ?_ b hb
        simp only [List.length_drop, List.length_cons]
        simp only [List.length_cons] at h
        omega

theorem chunk16_mem : ∀ (s : List Nat), ∀ b ∈ chunk16 s, ∀ x ∈ b, x ∈ s := by
  intro s
  induction s using chunk16_ind with
  | h0 => rw [chunk16_nil]; simp
  | h1 y ys ih =>
      rw [chunk16_cons]
      intro b hb x hx
      rcases List.mem_cons.1 hb with hb | hb
      · exact List.mem_of_mem_take (hb ▸ hx)
      · exact List.mem_of_mem_drop (ih b hb x hx)

theorem chunk16_of_blocks {bs : List (List Nat)} (h : ∀ b ∈ bs, b.length = 16) :
    chunk16 bs.flatten = bs := by
  induction bs with
  | nil => rw [List.flatten_nil, chunk16_nil]
  | cons b rest ih =>
      have hb : b.length = 16 := h b (by simp)
      have hflat : (b ++ rest.flatten) ≠ [] := by
        intro hc
        have := congrArg List.length hc
        simp [hb] at this
      rw [List.flatten_cons]
      cases hbr : b ++ rest.flatten with
      | nil => exact absurd hbr hflat
      | cons z zs =>
          rw [chunk16_cons, ← hbr]
          rw [List.take_append_of_le_length (by omega), List.drop_append_of_le_length (by omega)]
          rw [List.take_of_length_le (by omega), List.drop_of_length_le (by omega)]
          simp only [List.nil_append]
          rw [ih (fun c hc => h c (by simp [hc]))]

/-! Lemmas about CBC chaining over an abstract block transform. -/

theorem cbcEncBlocks_blocklen {E : List Nat → List Nat}
    (hlenE : ∀ b, b.length = 16 → (E b).length = 16) :
    ∀ (bs : List (List Nat)) (prev : List Nat), prev.length = 16 →
      (∀ b ∈ bs, b.length = 16) → ∀ c ∈ cbcEncBlocks E prev bs, c.length = 16 := by
  intro bs
  induction bs with
  | nil => simp [cbcEncBlocks]
  | cons p ps ih =>
      intro prev hprev hbs c hc
      simp only [cbcEncBlocks, List.mem_cons] at hc
      have hin : (xorB prev p).length = 16 := by
        rw [xorB_length, hprev, hbs p (by simp)]
        rfl
      rcases hc with hc | hc
      · subst hc
        exact hlenE _ hin
      · exact ih (E (xorB prev p)) (hlenE _ hin)
          (fun b hb => hbs b (by simp [hb])) c hc

theorem cbcEncBlocks_bytes {E : List Nat → List Nat}
    (hlenE : ∀ b, b.length = 16 → (E b).length = 16)
    (hbytesE : ∀ b, b.length = 16 → (∀ x ∈ b, x < 256) → ∀ x ∈ E b, x < 256) :
    ∀ (bs : List (List Nat)) (prev : List Nat), prev.length = 16 →
      (∀ x ∈ prev, x < 256) → (∀ b ∈ bs, b.length = 16 ∧ ∀ x ∈ b, x < 256) →
      ∀ c ∈ cbcEncBlocks E prev bs, ∀ x ∈ c, x < 256 := by
  intro bs
  induction bs with
  | nil => simp [cbcEncBlocks]
  | cons p ps ih =>
      intro prev hprev hprevB hbs c hc
      have hp16 : p.length = 16 := (hbs p (by simp)).1
      have hpB : ∀ x ∈ p, x < 256 := (hbs p (by simp)).2
      have hin16 : (xorB prev p).length = 16 := by
        rw [xorB_length, hprev, hp16]; rfl
      have hinB : ∀ x ∈ xorB prev p, x < 256 := xorB_lt hprevB hpB
      simp only [cbcEncBlocks, List.mem_cons] at hc
      rcases hc with hc | hc
      · subst hc
        exact hbytesE _ hin16 hinB
      · exact ih (E (xorB prev p)) (hlenE _ hin16)
          (hbytesE _ hin16 hinB) (fun b hb => hbs b (by simp [hb])) c hc

theorem cbcDec_cbcEnc {E D : List Nat → List Nat}
    (hlenE : ∀ b, b.length = 16 → (E b).length = 16)
    (hinv : ∀ b, b.length = 16 → D (E b) = b) :
    ∀ (bs : List (List Nat)) (prev : List Nat), prev.length = 16 →
      (∀ b ∈ bs, b.length = 16) →
      cbcDecBlocks D prev (cbcEncBlocks E prev bs) = bs := by
  intro bs
  induction bs with
  | nil => intro prev _ _; rfl
  | cons p ps ih =>
      intro prev hprev hbs
      have hp16 : p.length = 16 := hbs p (by simp)
      have hin16 : (xorB prev p).length = 16 := by
        rw [xorB_length, hprev, hp16]; rfl
      simp only [cbcEncBlocks, cbcDecBlocks]
      rw [hinv _ hin16, xorB_xorB (by omega)]
      rw [ih (E (xorB prev p)) (hlenE _ hin16) (fun b hb => hbs b (by simp [hb]))]

theorem flatten_len16 {bs : List (List Nat)} (h : ∀ b ∈ bs, b.length = 16) :
    bs.flatten.length = 16 * bs.length := by
  induction bs with
  | nil => simp
  | cons b rest ih =>
      simp only [List.flatten_cons, List.length_append, List.length_cons,
        h b (by simp), ih fun c hc => h c (by simp [hc])]
      ring

/-! Lemmas about the length-prefixed padded name buffer. -/

theorem pack4_length (L : Nat) : (pack4 L).length = 4 := rfl

theorem pack4_bytes (L : Nat) : ∀ x ∈ pack4 L, x < 256 := by
  intro x hx
  simp only [pack4, List.mem_cons, List.not_mem_nil, or_false] at hx
  rcases hx with h | h | h | h <;> subst h <;> omega

theorem padName_eq (n : List Nat) :
    padName n = pack4 n.length ++ n
      ++ List.replicate ((16 - (4 + n.length) % 16) % 16) 32 := by
  unfold padName
  have hlen : (pack4 n.length ++ n).length = 4 + n.length := by
    simp [pack4_length]
  dsimp only
  split_ifs with h
  · congr 1
    rw [hlen]
    rw [hlen] at h
    congr 1
    omega
  · rw [hlen] at h
    simp only [ne_eq, not_not] at h
    rw [h]
    simp

theorem padName_length_mod (n : List Nat) : (padName n).length % 16 = 0 := by
  rw [padName_eq]
  simp only [List.length_append, pack4_length, List.length_replicate]
  omega

theorem padName_length_ge (n : List Nat) : 4 + n.length ≤ (padName n).length := by
  rw [padName_eq]
  simp only [List.length_append, pack4_length, List.length_replicate]
  omega

theorem padName_take (n : List Nat) : (padName n).take 4 = pack4 n.length := by
  rw [padName_eq, List.append_assoc, ← pack4_length n.length, List.take_left]

theorem padName_drop_take (n : List Nat) :
    ((padName n).drop 4).take n.length = n := by
  rw [padName_eq, List.append_assoc, ← pack4_length n.length,
    List.drop_left, List.take_left]

theorem padName_bytes {n : List Nat} (h : ∀ x ∈ n, x < 256) :
    ∀ x ∈ padName n, x < 256 := by
  rw [padName_eq]
  intro x hx
  rcases List.mem_append.1 hx with hx | hx
  · rcases List.mem_append.1 hx with hx | hx
    · exact pack4_bytes _ x hx
    · exact h x hx
  · rw [List.eq_of_mem_replicate hx]
    omega

theorem signed32_pack4 {L : Nat} (h : L < 2 ^ 31) : signed32 (pack4 L) = L := by
  unfold signed32 pack4
  have e : ((L / 2 ^ 24 % 256 * 256 + L / 2 ^ 16 % 256) * 256
      + L / 2 ^ 8 % 256) * 256 + L % 256 = L := by omega
  simp only [List.headD_cons, List.drop_succ_cons, List.drop_zero]
  rw [e, Nat.mod_eq_of_lt (by omega)]
  rw [if_pos (by omega)]

/-- Master computation: decrypting an encrypted name under the same key
returns the name when it is non-empty and fails on the empty name
(whose length prefix is 0, rejected by the `0 < l` check). -/
theorem nameDec_nameEnc {E D : List Nat → List Nat → List Nat}
    {key : List Nat} (n : List Nat)
    (hlenE : ∀ b, b.length = 16 → (E (key.take 16) b).length = 16)
    (hbytesE : ∀ b, b.length = 16 → (∀ x ∈ b, x < 256) →
      ∀ x ∈ E (key.take 16) b, x < 256)
    (hinv : ∀ b, b.length = 16 → D (key.take 16) (E (key.take 16) b) = b)
    (hn : ∀ x ∈ n, x < 256) (hlen31 : n.length < 2 ^ 31) :
    nameDec D key (nameEnc E key n) =
      if 0 < n.length then .ok n else .error .cryptoFail := by
  have hIVlen : zeroIV.length = 16 := by simp [zeroIV]
  have hIVbytes : ∀ x ∈ zeroIV, x < 256 := by
    intro x hx
    rw [List.eq_of_mem_replicate hx]
    omega
  have hptBytes : ∀ x ∈ padName n, x < 256 := padName_bytes hn
  have hblocks : ∀ b ∈ chunk16 (padName n), b.length = 16 :=
    chunk16_blocklen _ (padName_length_mod n)
  have hblockBytes : ∀ b ∈ chunk16 (padName n), ∀ x ∈ b, x < 256 :=
    fun b hb x hx => hptBytes x (chunk16_mem _ b hb x hx)
  have hcts : ∀ c ∈ cbcEncBlocks (E (key.take 16)) zeroIV (chunk16 (padName n)),
      c.length = 16 :=
    cbcEncBlocks_blocklen hlenE _ _ hIVlen hblocks
  have hctBytes :
      ∀ x ∈ (cbcEncBlocks (E (key.take 16)) zeroIV (chunk16 (padName n))).flatten,
        x < 256 := by
    intro x hx
    rcases List.mem_flatten.1 hx with ⟨c, hc, hxc⟩
    exact cbcEncBlocks_bytes hlenE hbytesE _ _ hIVlen hIVbytes
      (fun b hb => ⟨hblocks b hb, hblockBytes b hb⟩) c hc x hxc
  have hhex :
      hexDecode (nameEnc E key n) =
        .ok (cbcEncBlocks (E (key.take 16)) zeroIV (chunk16 (padName n))).flatten := by
    rw [nameEnc]
    exact hexDecode_hexEncode hctBytes
  have hctlen :
      (cbcEncBlocks (E (key.take 16)) zeroIV (chunk16 (padName n))).flatten.length % 16
        = 0 := by
    rw [flatten_len16 hcts]
    omega
  rw [nameDec, hhex]
  dsimp only
  have h1 : ¬((cbcEncBlocks (E (key.take 16)) zeroIV
      (chunk16 (padName n))).flatten.length % 16 ≠ 0) := by
    simp only [ne_eq, not_not]
    exact hctlen
  rw [if_neg h1]
  rw [chunk16_of_blocks hcts,
    cbcDec_cbcEnc hlenE hinv _ _ hIVlen hblocks,
    chunk16_flatten]
  have hbuflen : 4 + n.length ≤ (padName n).length := padName_length_ge n
  have h2 : ¬((padName n).length < 4) := by omega
  rw [if_neg h2]
  rw [padName_take, signed32_pack4 hlen31]
  by_cases hpos : 0 < n.length
  · have h3 : 0 < (n.length : Int) ∧ (n.length : Int) < ((padName n).length : Int) := by
      constructor
      · exact_mod_cast hpos
      · exact_mod_cast (by omega : n.length < (padName n).length)
    rw [if_pos h3, if_pos hpos, Int.toNat_natCast, padName_drop_take]
  · have h0 : n.length = 0 := by omega
    have h3 : ¬(0 < (n.length : Int) ∧
        (n.length : Int) < ((padName n).length : Int)) := by
      rw [h0]
      simp
    rw [if_neg h3, if_neg hpos]

theorem xorB_xorB_right {b k : List Nat} (h : b.length ≤ k.length) :
    xorB (xorB b k) k = b := by
  induction b generalizing k with
  | nil => simp [xorB]
  | cons x xs ih =>
      cases k with
      | nil => simp at h
      | cons y ys =>
          have h' : xs.length ≤ ys.length := by simpa using h
          simp only [xorB, List.zipWith_cons_cons]
          rw [Nat.xor_cancel_right]
          exact congrArg _ (ih h')

theorem xorCipher_len {k : List Nat} (hk : 16 ≤ k.length) :
    ∀ b : List Nat, b.length = 16 → (xorCipher k b).length = 16 := by
  intro b hb
  rw [xorCipher, xorB_length, hb, List.length_take]
  omega

theorem xorCipher_inv {k : List Nat} (hk : 16 ≤ k.length) :
    ∀ b : List Nat, b.length = 16 → xorCipher k (xorCipher k b) = b := by
  intro b hb
  rw [xorCipher, xorCipher, xorB_xorB_right]
  rw [hb, List.length_take]
  omega

theorem xorCipher_bytes {k : List Nat} (hkb : ∀ x ∈ k, x < 256) :
    ∀ b : List Nat, b.length = 16 → (∀ x ∈ b, x < 256) →
      ∀ x ∈ xorCipher k b, x < 256 := by
  intro b _ hbB
  exact xorB_lt hbB fun x hx => hkb x (List.mem_of_mem_take hx)

/-- C1 (amended): for every name of length at least 1 (and below the
2^31 `struct.pack` bound), decrypting the encrypted name under the
same key returns the name; the empty name, however, does NOT
round-trip — its decoded length prefix is 0, which the `0 < l` check
rejects, so `NameCrypto.__dec` raises instead of returning `''`.  The
block transform is quantified over any length-preserving invertible
byte permutation on 16-byte blocks (AES in the source). -/
theorem C1_name_roundtrip
    (E D : List Nat → List Nat → List Nat) (key n : List Nat)
    (hlenE : ∀ b, b.length = 16 → (E (key.take 16) b).length = 16)
    (hbytesE : ∀ b, b.length = 16 → (∀ x ∈ b, x < 256) →
      ∀ x ∈ E (key.take 16) b, x < 256)
    (hinv : ∀ b, b.length = 16 → D (key.take 16) (E (key.take 16) b) = b)
    (hn : ∀ x ∈ n, x < 256) (hlen31 : n.length < 2 ^ 31)
    (hpos : 1 ≤ n.length) :
    nameDec D key (nameEnc E key n) = .ok n ∧
    nameDec D key (nameEnc E key []) = .error .cryptoFail := by
  constructor
  · rw [nameDec_nameEnc n hlenE hbytesE hinv hn hlen31, if_pos (by omega)]
  · rw [nameDec_nameEnc [] hlenE hbytesE hinv (by simp) (by simp)]
    simp

/-- C1 witness: the round-trip theorem applied to the one-byte name
"a" with the xor instance cipher under `keyA`. -/
theorem C1_name_roundtrip_witness :
    nameDec xorCipher keyA (nameEnc xorCipher keyA [97]) = .ok [97] ∧
    nameDec xorCipher keyA (nameEnc xorCipher keyA []) = .error .cryptoFail :=
  C1_name_roundtrip xorCipher xorCipher keyA [97]
    (fun b hb => xorCipher_len (by decide) b hb)
    (fun b hb hbB => xorCipher_bytes
      (fun x hx => (by decide : ∀ y ∈ keyA, y < 256) x (List.mem_of_mem_take hx))
      b hb hbB)
    (fun b hb => xorCipher_inv (by decide) b hb)
    (by decide) (by decide) (by decide)

/-- C1 counterexample: the claim as stated is false on the code in two
ways.  (1) The empty name (length 0, within the claimed range) does
not round-trip: decryption of its encryption raises.  (2) Decrypting
under a wrong key does not necessarily fail: with `keyB` (one bit away
from `keyA`) the garbled length prefix happens to decode to 5, and
`__dec` silently returns 5 bytes of wrong data instead of raising. -/
theorem C1_name_roundtrip_cex :
    (nameDec xorCipher keyA (nameEnc xorCipher keyA []) = .error .cryptoFail) ∧
    (nameDec xorCipher keyB (nameEnc xorCipher keyA [97, 98, 99, 100])
      = .ok [97, 98, 99, 100, 32]) ∧
    [97, 98, 99, 100, 32] ≠ [97, 98, 99, 100] :=
  ⟨rfl, rfl, by decide⟩

/-- C2 (amended): for a ciphertext name that hex-decodes to a nonempty
multiple of the block size, `__dec` validates the decoded 4-byte
big-endian signed length prefix `l` with `0 < l < len(dec)` — it fails
iff `l` is zero, negative, or at least the TOTAL decrypted buffer
length (not the length remaining after the prefix, as the claim says);
in the non-failing case it returns `dec[4:4+l]`, which has exactly
`min l (len(dec) - 4)` bytes and is therefore shorter than `l` when
`len(dec) - 4 < l < len(dec)`. -/
theorem C2_dec_validation
    (D : List Nat → List Nat → List Nat) (key cfn s : List Nat)
    (hhex : hexDecode cfn = .ok s) (hmod : s.length % 16 = 0)
    (h4 : 4 ≤ (decBuf D key s).length) :
    (nameDec D key cfn = .error .cryptoFail ↔
      ¬(0 < signed32 ((decBuf D key s).take 4) ∧
        signed32 ((decBuf D key s).take 4) < ((decBuf D key s).length : Int))) ∧
    (∀ r, nameDec D key cfn = .ok r →
      r = ((decBuf D key s).drop 4).take (signed32 ((decBuf D key s).take 4)).toNat ∧
      r.length = min (signed32 ((decBuf D key s).take 4)).toNat
        ((decBuf D key s).length - 4)) := by
  unfold decBuf at h4 ⊢
  rw [nameDec, hhex]
  dsimp only
  have hmod' : ¬(s.length % 16 ≠ 0) := by omega
  rw [if_neg hmod']
  have hlt : ¬((cbcDecBlocks (D (key.take 16)) zeroIV (chunk16 s)).flatten.length < 4) := by
    omega
  rw [if_neg hlt]
  by_cases hc : 0 < signed32
        (((cbcDecBlocks (D (key.take 16)) zeroIV (chunk16 s)).flatten).take 4) ∧
      signed32 (((cbcDecBlocks (D (key.take 16)) zeroIV (chunk16 s)).flatten).take 4)
        < (((cbcDecBlocks (D (key.take 16)) zeroIV (chunk16 s)).flatten).length : Int)
  · rw [if_pos hc]
    constructor
    · constructor
      · intro h
        cases h
      · intro h
        exact absurd hc h
    · intro r hr
      have hr' : r = ((decBuf D key s).drop 4).take
          (signed32 ((decBuf D key s).take 4)).toNat := by
        cases hr
        rfl
      refine ⟨hr', ?_⟩
      rw [hr', List.length_take, List.length_drop]
      rfl
  · rw [if_neg hc]
    constructor
    · constructor
      · intro _
        exact hc
      · intro _
        rfl
    · intro r hr
      cases hr

/-- C2 witness: the validation characterization applied to a concrete
one-block ciphertext (identity block transform) whose decoded length
prefix is 1. -/
theorem C2_dec_validation_witness :
    nameDec idCipher keyA (hexEncode c2s) = .error .cryptoFail ↔
      ¬(0 < signed32 ((decBuf idCipher keyA c2s).take 4) ∧
        signed32 ((decBuf idCipher keyA c2s).take 4)
          < ((decBuf idCipher keyA c2s).length : Int)) :=
  (C2_dec_validation idCipher keyA (hexEncode c2s) c2s rfl (by decide)
    (by decide)).1

/-- C2 counterexample: a one-block ciphertext decrypting to a buffer
with length prefix 15.  The prefix exceeds the 12 bytes remaining
after it, so by the claim decryption must fail — but the code's
`0 < l < len(dec)` check passes (15 < 16) and `__dec` returns only the
12 remaining bytes, not 15 and not an error. -/
theorem C2_dec_validation_cex :
    nameDec idCipher keyA (hexEncode ([0, 0, 0, 15] ++ List.replicate 12 7))
        = .ok (List.replicate 12 7) ∧
    signed32 [0, 0, 0, 15] = 15 ∧
    (decBuf idCipher keyA ([0, 0, 0, 15] ++ List.replicate 12 7)).length - 4 = 12 ∧
    (List.replicate 12 7).length ≠ 15 :=
  ⟨rfl, rfl, rfl, by decide⟩

/-- C5: the name-wrapper encryption implemented by `NameCrypto.__enc`
(key stored by `__init__` as the SHA-512 digest of the secret, first
16 bytes used as the AES key, conditional space padding, CBC, "%.2x"
hex) computes exactly the pipeline the spec describes. -/
theorem C5_nameEnc_spec (E : List Nat → List Nat → List Nat)
    (sha512 : List Nat → List Nat) (secret n : List Nat) :
    nameEnc E (nameCryptoKey sha512 secret) n = nameEncSpec E sha512 secret n := by
  rw [nameEnc, nameEncSpec, nameCryptoKey]
  congr 2
  rw [padName_eq, padSpec]
  have hlen : (pack4 n.length ++ n).length = 4 + n.length := by
    simp [pack4_length]
  rw [hlen, List.append_assoc]

/-- C3: evaluation of the claim at a concrete inner backend holding
'x' -> 'data'.  `put` and `list` do delegate as claimed, but `get`
delegates to the inner PUT (the source line is
`return self.next.put(*args)`, a TypeError at call time since put
takes two arguments), and `delete` is never delegated — it falls
through to the abstract `Backend.delete`, which raises
NotImplementedError.  The base wrapper therefore is NOT
observationally equal to the wrapped backend, contradicting its own
docstring "By default changes nothing". -/
theorem C3_backendWrapper_code_bug :
    ((backendWrapper innerBE).put [.vStr "x", .vStr "data"]
        = innerBE.put [.vStr "x", .vStr "data"]) ∧
    ((backendWrapper innerBE).list [] = innerBE.list []) ∧
    ((backendWrapper innerBE).get [.vStr "x"] = .error .typeError) ∧
    (innerBE.get [.vStr "x"] = .ok (.vStr "data")) ∧
    ((backendWrapper innerBE).get [.vStr "x"] ≠ innerBE.get [.vStr "x"]) ∧
    ((backendWrapper innerBE).delete [.vStr "x"] = .error .notImplementedError) ∧
    (innerBE.delete [.vStr "x"] = .ok .vNone) ∧
    ((backendWrapper innerBE).delete [.vStr "x"] ≠ innerBE.delete [.vStr "x"]) := by
  refine ⟨rfl, rfl, rfl, rfl, ?_, rfl, rfl, ?_⟩ <;> decide

/-- A tuple is never an element of a list of strings: Python's `==`
between a tuple and a string is False, so the membership test in
`list_orphans` never succeeds and every hash is printed. -/
theorem listOrphans_eq_self (all_blocks : List String) :
    listOrphans all_blocks = all_blocks := by
  rw [listOrphans]
  apply List.filter_eq_self.2
  intro h _
  simp only [Bool.not_eq_true', decide_eq_false_iff_not]
  intro hmem
  rcases List.mem_map.1 hmem with ⟨a, _, ha⟩
  cases ha

/-- C6: `list_orphans` tests `(algo, hash) not in all_blocks`, where
`all_blocks` is the data backend's listing (a list of strings) — the
tuple never equals a string, so the test always holds and the loop
prints every block, while the computed `mf_blocks` is never consulted.
At a data listing ['h1'] whose only block IS recorded in a manifest,
the code prints 'h1' although the claim (and the spec's intended
reading) says nothing should be printed. -/
theorem C6_list_orphans_code_bug :
    listOrphans ["h1"] = ["h1"] ∧
    ("sha512", "h1") ∈ [("sha512", "h1")] ∧
    orphansSpec ["h1"] [("sha512", "h1")] = [] :=
  ⟨listOrphans_eq_self ["h1"], by decide, by decide⟩

/-- Once `alg` has been bound to 'sha512', every remaining line is
appended as ('sha512', stripped line) regardless of its length. -/
theorem loadSkipAux_some :
    ∀ lines : List (List Nat),
      loadSkipAux (some sha512Bytes) lines
        = .ok (lines.map fun x => (sha512Bytes, pystrip x)) := by
  intro lines
  induction lines with
  | nil => rfl
  | cons l ls ih =>
      rw [loadSkipAux]
      have halg : (if (pystrip l).length = 128 then some sha512Bytes
          else some sha512Bytes) = some sha512Bytes := by
        split <;> rfl
      rw [halg]
      dsimp only
      rw [ih]
      rfl

/-- C7 (amended): each line is stripped and appended as the pair
('sha512', stripped line) — for every line regardless of length —
PROVIDED the first line's stripped length is 128 (the only length that
binds `alg`).  If the first stripped line has any other length, the
loop reads the still-unbound `alg` and raises (UnboundLocalError)
instead of seeding anything. -/
theorem C7_skip_blocks_seed :
    loadSkipBlocks [] = .ok [] ∧
    ∀ (l : List Nat) (ls : List (List Nat)),
      loadSkipBlocks (l :: ls) =
        if (pystrip l).length = 128 then
          .ok ((l :: ls).map fun x => (sha512Bytes, pystrip x))
        else .error .nameError := by
  refine ⟨rfl, ?_⟩
  intro l ls
  rw [loadSkipBlocks, loadSkipAux]
  by_cases h : (pystrip l).length = 128
  · rw [if_pos h, if_pos h]
    dsimp only
    rw [loadSkipAux_some]
    rw [List.map_cons]
  · rw [if_neg h, if_neg h]

/-- C7 counterexample: a skip-blocks file whose only line is 'abc'
(stripped length 3).  The claim says it is seeded as
('sha512', 'abc'); the code instead crashes reading the unbound
`alg`. -/
theorem C7_skip_blocks_cex :
    loadSkipBlocks [[97, 98, 99]] = .error .nameError ∧
    loadSkipBlocks [[97, 98, 99]] ≠ .ok [(sha512Bytes, [97, 98, 99])] := by
  refine ⟨rfl, ?_⟩
  decide

theorem rleDecode_append {α : Type} (a b : List (Nat × α)) :
    rleDecode (a ++ b) = rleDecode a ++ rleDecode b := by
  simp [rleDecode]

theorem rleDecode_single {α : Type} (c : Nat) (x : α) :
    rleDecode [(c, x)] = List.replicate c x := by
  simp [rleDecode]

theorem rleDecode_length {α : Type} (l : List (Nat × α)) :
    (rleDecode l).length = (l.map Prod.fst).sum := by
  induction l with
  | nil => rfl
  | cons p rest ih =>
      simp only [rleDecode, List.map_cons, List.flatten_cons, List.length_append,
        List.length_replicate, List.sum_cons]
      rw [← ih]
      rfl

theorem uniqCLoop_decode {α : Type} [DecidableEq α] :
    ∀ (xs : List α) (count : Nat) (last : α) (ret : List (Nat × α)),
      rleDecode (uniqCLoop xs count last ret)
        = rleDecode ret ++ List.replicate count last ++ xs := by
  intro xs
  induction xs with
  | nil =>
      intro count last ret
      rw [uniqCLoop, rleDecode_append, rleDecode_single, List.append_nil]
  | cons x xs ih =>
      intro count last ret
      rw [uniqCLoop]
      by_cases h : x = last
      · rw [if_pos h, ih]
        subst h
        rw [List.append_assoc, List.append_assoc]
        congr 1
        rw [List.replicate_succ']
        simp
      · rw [if_neg h, ih, rleDecode_append, rleDecode_single]
        simp

theorem uniqCLoop_good {α : Type} [DecidableEq α] :
    ∀ (xs : List α) (count : Nat) (last : α) (ret : List (Nat × α)),
      1 ≤ count → (∀ p ∈ ret, 1 ≤ p.1) →
      List.Chain' (fun p q : Nat × α => p.2 ≠ q.2) (ret ++ [(count, last)]) →
      (∀ p ∈ uniqCLoop xs count last ret, 1 ≤ p.1) ∧
      List.Chain' (fun p q : Nat × α => p.2 ≠ q.2) (uniqCLoop xs count last ret) := by
  intro xs
  induction xs with
  | nil =>
      intro count last ret hc hret hch
      rw [uniqCLoop]
      refine ⟨?_, hch⟩
      intro p hp
      rcases List.mem_append.1 hp with hp | hp
      · exact hret p hp
      · rw [List.mem_singleton.1 hp]
        exact hc
  | cons x xs ih =>
      intro count last ret hc hret hch
      rw [uniqCLoop]
      by_cases h : x = last
      · rw [if_pos h]
        refine ih (count + 1) last ret (by omega) hret ?_
        rw [List.chain'_append] at hch ⊢
        refine ⟨hch.1, List.chain'_singleton _, ?_⟩
        intro a ha b hb
        simp only [List.head?_cons, Option.mem_def, Option.some.injEq] at hb
        subst hb
        exact hch.2.2 a ha (count, last) (by simp)
      · rw [if_neg h]
        refine ih 1 x (ret ++ [(count, last)]) le_rfl ?_ ?_
        · intro p hp
          rcases List.mem_append.1 hp with hp | hp
          · exact hret p hp
          · rw [List.mem_singleton.1 hp]
            exact hc
        · rw [List.chain'_append]
          refine ⟨hch, List.chain'_singleton _, ?_⟩
          intro a ha b hb
          simp only [List.head?_cons, Option.mem_def, Option.some.injEq] at hb
          subst hb
          rw [List.getLast?_concat] at ha
          simp only [Option.mem_def, Option.some.injEq] at ha
          subst ha
          simpa using fun he => h he.symm

/-- C10: uniq_c is a run-length encoding: expanding its output
(count repetitions of value, in order) yields the input list exactly;
the counts sum to the input length; every count is at least 1;
adjacent pairs carry distinct values; and the empty list encodes to
the empty list. -/
theorem C10_uniq_c_rle {α : Type} [DecidableEq α] (arr : List α) :
    rleDecode (uniq_c arr) = arr ∧
    ((uniq_c arr).map Prod.fst).sum = arr.length ∧
    (∀ p ∈ uniq_c arr, 1 ≤ p.1) ∧
    List.Chain' (fun p q : Nat × α => p.2 ≠ q.2) (uniq_c arr) ∧
    uniq_c ([] : List α) = [] := by
  have hdec : rleDecode (uniq_c arr) = arr := by
    cases arr with
    | nil => rfl
    | cons x xs =>
        rw [uniq_c, uniqCLoop_decode]
        rfl
  have hgood : (∀ p ∈ uniq_c arr, 1 ≤ p.1) ∧
      List.Chain' (fun p q : Nat × α => p.2 ≠ q.2) (uniq_c arr) := by
    cases arr with
    | nil => exact ⟨by simp [uniq_c], by simp [uniq_c]⟩
    | cons x xs =>
        rw [uniq_c]
        refine uniqCLoop_good xs 1 x [] le_rfl (by simp) ?_
        simp
  refine ⟨hdec, ?_, hgood.1, hgood.2, rfl⟩
  rw [← rleDecode_length, hdec]

/-! Lemmas about the metadata dictionary. -/

theorem dlookup_dictSet_self {ν : Type} (d : List (String × ν)) (k : String) (v : ν) :
    dlookup (dictSet d k v) k = some v := by
  induction d with
  | nil => simp [dictSet, dlookup]
  | cons p rest ih =>
      obtain ⟨a, b⟩ := p
      rw [dictSet]
      by_cases hk : a = k
      · rw [if_pos hk, dlookup, if_pos rfl]
      · rw [if_neg hk, dlookup, if_neg (fun hc : k = a => hk hc.symm)]
        exact ih

theorem dlookup_dictSet_other {ν : Type} (d : List (String × ν)) (k k' : String)
    (v : ν) (h : k' ≠ k) : dlookup (dictSet d k v) k' = dlookup d k' := by
  induction d with
  | nil => simp [dictSet, dlookup, if_neg h]
  | cons p rest ih =>
      obtain ⟨a, b⟩ := p
      rw [dictSet]
      by_cases hk : a = k
      · rw [if_pos hk, dlookup, dlookup, if_neg (hk ▸ h : ¬ k' = a)]
        rw [if_neg (fun hc : k' = k => h hc)]
      · rw [if_neg hk, dlookup, dlookup]
        by_cases hk' : k' = a
        · rw [if_pos hk', if_pos hk']
        · rw [if_neg hk', if_neg hk']
          exact ih

theorem dlookup_dictSet_isSome {ν : Type} (d : List (String × ν)) (k k' : String)
    (v : ν) (h : (dlookup d k').isSome) :
    (dlookup (dictSet d k v) k').isSome := by
  by_cases hk : k' = k
  · subst hk
    rw [dlookup_dictSet_self]
    rfl
  · rw [dlookup_dictSet_other d k k' v hk]
    exact h

theorem foldl_dictSet_not_mem {ν : Type} :
    ∀ (kvs : List (String × ν)) (d : List (String × ν)) (k : String),
      (∀ kv ∈ kvs, kv.1 ≠ k) →
      dlookup (kvs.foldl (fun d kv => dictSet d kv.1 kv.2) d) k = dlookup d k := by
  intro kvs
  induction kvs with
  | nil => intro d k _; rfl
  | cons kv rest ih =>
      intro d k h
      rw [List.foldl_cons, ih _ _ (fun q hq => h q (by simp [hq]))]
      exact dlookup_dictSet_other d kv.1 k kv.2 (fun hc => h kv (by simp) hc.symm)

theorem foldl_dictSet_mem {ν : Type} :
    ∀ (kvs : List (String × ν)) (d : List (String × ν)) (k : String) (v : ν),
      (kvs.map Prod.fst).Nodup → (k, v) ∈ kvs →
      dlookup (kvs.foldl (fun d kv => dictSet d kv.1 kv.2) d) k = some v := by
  intro kvs
  induction kvs with
  | nil => intro d k v _ hm; cases hm
  | cons kv rest ih =>
      intro d k v hnd hm
      rw [List.map_cons, List.nodup_cons] at hnd
      rw [List.foldl_cons]
      rcases List.mem_cons.1 hm with hm | hm
      · subst hm
        rw [foldl_dictSet_not_mem rest _ k ?_, dlookup_dictSet_self]
        intro q hq hc
        exact hnd.1 (List.mem_map.2 ⟨q, hq, hc⟩)
      · exact ih _ k v hnd.2 hm

theorem foldl_dictSet_isSome {ν : Type} :
    ∀ (kvs : List (String × ν)) (d : List (String × ν)) (k : String),
      (dlookup d k).isSome →
      (dlookup (kvs.foldl (fun d kv => dictSet d kv.1 kv.2) d) k).isSome := by
  intro kvs
  induction kvs with
  | nil => intro d k h; exact h
  | cons kv rest ih =>
      intro d k h
      rw [List.foldl_cons]
      exact ih _ k (dlookup_dictSet_isSome _ _ _ _ h)

theorem fmdSetattr_unprotected (d : List (String × PyVal)) (k : String) (v : PyVal) :
    fmdSetattr ⟨d, false⟩ k v = .ok ⟨dictSet d k v, false⟩ := by
  rw [fmdSetattr, if_neg]
  intro hc
  exact absurd hc.2 (by simp)

theorem fmdInit_fold_none :
    ∀ (ps : List String) (d : List (String × PyVal)),
      ps.foldlM (fun st p => fmdSetattr st p PyVal.vNone)
          (⟨d, false⟩ : FileMetaData)
        = .ok ⟨ps.foldl (fun d p => dictSet d p PyVal.vNone) d, false⟩ := by
  intro ps
  induction ps with
  | nil => intro d; rfl
  | cons p rest ih =>
      intro d
      rw [List.foldlM_cons, fmdSetattr_unprotected]
      show rest.foldlM _ (⟨dictSet d p PyVal.vNone, false⟩ : FileMetaData) = _
      rw [ih, List.foldl_cons]

theorem fmdInit_fold_props :
    ∀ (kvs : List (String × PyVal)) (d : List (String × PyVal)),
      kvs.foldlM (fun st kv => fmdSetattr st kv.1 kv.2)
          (⟨d, false⟩ : FileMetaData)
        = .ok ⟨kvs.foldl (fun d kv => dictSet d kv.1 kv.2) d, false⟩ := by
  intro kvs
  induction kvs with
  | nil => intro d; rfl
  | cons kv rest ih =>
      intro d
      rw [List.foldlM_cons, fmdSetattr_unprotected]
      show rest.foldlM _ (⟨dictSet d kv.1 kv.2, false⟩ : FileMetaData) = _
      rw [ih, List.foldl_cons]

theorem fmdInit_none (props : List (String × PyVal)) :
    fmdInit props Option.none = .ok ⟨fmdDictOf props, true⟩ := by
  rw [fmdInit]
  show (match (Option.none : Option FileMetaData) with
    | some o => propnames.foldlM (fun st p => do
        let v ← getattrE o p
        fmdSetattr st p v) ⟨[], false⟩
    | Option.none => propnames.foldlM (fun st p => fmdSetattr st p PyVal.vNone)
        ⟨[], false⟩) >>= _ = _
  rw [show (match (Option.none : Option FileMetaData) with
    | some o => propnames.foldlM (fun st p => do
        let v ← getattrE o p
        fmdSetattr st p v) (⟨[], false⟩ : FileMetaData)
    | Option.none => propnames.foldlM (fun st p => fmdSetattr st p PyVal.vNone)
        (⟨[], false⟩ : FileMetaData))
      = propnames.foldlM (fun st p => fmdSetattr st p PyVal.vNone) ⟨[], false⟩
    from rfl]
  rw [fmdInit_fold_none]
  show props.foldlM (fun st kv => fmdSetattr st kv.1 kv.2)
      (⟨fmdBaseDict, false⟩ : FileMetaData) >>= _ = _
  rw [fmdInit_fold_props]
  rfl

theorem fmdInit_fold_other (o : FileMetaData) :
    ∀ (ps : List String) (d : List (String × PyVal)),
      (∀ p ∈ ps, (dlookup o.dict p).isSome) →
      ps.foldlM (fun st p => do
          let v ← getattrE o p
          fmdSetattr st p v) (⟨d, false⟩ : FileMetaData)
        = .ok ⟨ps.foldl
            (fun d p => dictSet d p ((dlookup o.dict p).getD PyVal.vNone)) d,
          false⟩ := by
  intro ps
  induction ps with
  | nil => intro d _; rfl
  | cons p rest ih =>
      intro d hps
      rw [List.foldlM_cons]
      have hsome := hps p (by simp)
      obtain ⟨v, hv⟩ := Option.isSome_iff_exists.1 hsome
      have hget : getattrE o p = .ok v := by
        rw [getattrE, hv]
      rw [show (do
          let v ← getattrE o p
          fmdSetattr (⟨d, false⟩ : FileMetaData) p v)
        = fmdSetattr ⟨d, false⟩ p v by rw [hget]; rfl]
      rw [fmdSetattr_unprotected]
      show rest.foldlM _
          (⟨dictSet d p v, false⟩ : FileMetaData) = _
      rw [ih _ (fun q hq => hps q (by simp [hq])), List.foldl_cons, hv]
      rfl

theorem fmdBaseDict_has_propnames :
    ∀ p ∈ propnames, (dlookup fmdBaseDict p).isSome := by
  decide

/-- C8: FileMetaData is constructed once and immutable afterwards.
Construction from a props dict (with distinct keys) succeeds and the
resulting instance carries exactly the given property values;
construction from another fully-populated instance also succeeds;
afterwards every assignment to an attribute whose name does not start
with an underscore fails with AssertionError (so the values set at
construction are never overwritten). -/
theorem C8_metadata_immutable (props : List (String × PyVal))
    (hnodup : (props.map Prod.fst).Nodup) :
    fmdInit props Option.none = .ok ⟨fmdDictOf props, true⟩ ∧
    (∀ k v, (k, v) ∈ props → dlookup (fmdDictOf props) k = some v) ∧
    (∀ k v, startsUnderscore k = false →
      fmdSetattr ⟨fmdDictOf props, true⟩ k v = .error .assertionError) ∧
    (∀ props0 : List (String × PyVal), ∃ d2,
      fmdInit props (some ⟨fmdDictOf props0, true⟩) = .ok ⟨d2, true⟩) := by
  refine ⟨fmdInit_none props, ?_, ?_, ?_⟩
  · intro k v hm
    exact foldl_dictSet_mem props fmdBaseDict k v hnodup hm
  · intro k v hk
    rw [fmdSetattr, if_pos ⟨by rw [hk]; exact Bool.false_ne_true, rfl⟩]
  · intro props0
    refine ⟨props.foldl (fun d kv => dictSet d kv.1 kv.2)
      (propnames.foldl (fun d p =>
        dictSet d p ((dlookup (fmdDictOf props0) p).getD PyVal.vNone)) []), ?_⟩
    rw [fmdInit]
    rw [fmdInit_fold_other ⟨fmdDictOf props0, true⟩ propnames []
      (fun p hp => by
        have h1 := fmdBaseDict_has_propnames p hp
        exact foldl_dictSet_isSome props0 fmdBaseDict p h1)]
    show props.foldlM (fun st kv => fmdSetattr st kv.1 kv.2)
        (⟨_, false⟩ : FileMetaData) >>= _ = _
    rw [fmdInit_fold_props]
    rfl

/-- C8 witness: construct a metadata instance from
props = [("uid", 5), ("is_regular", True)]; both stored values are
readable, and a post-construction write to `uid` is rejected. -/
theorem C8_metadata_immutable_witness :
    fmdInit [("uid", PyVal.vInt 5), ("is_regular", PyVal.vBool true)]
        Option.none
      = .ok ⟨fmdDictOf [("uid", PyVal.vInt 5), ("is_regular", PyVal.vBool true)],
          true⟩ ∧
    dlookup (fmdDictOf [("uid", PyVal.vInt 5), ("is_regular", PyVal.vBool true)])
        "uid" = some (PyVal.vInt 5) ∧
    fmdSetattr
        ⟨fmdDictOf [("uid", PyVal.vInt 5), ("is_regular", PyVal.vBool true)],
          true⟩
        "uid" (PyVal.vInt 9) = .error .assertionError := by
  have h := C8_metadata_immutable
    [("uid", PyVal.vInt 5), ("is_regular", PyVal.vBool true)] (by decide)
  exact ⟨h.1, h.2.1 "uid" (PyVal.vInt 5) (by decide),
    h.2.2.1 "uid" (PyVal.vInt 9) (by decide)⟩

/-- C9: `propnames` lists 'yser_read' where 'user_read' was intended,
so the documented dictionary-style lookup of 'user_read' via
`__getitem__` raises KeyError on every instance; consequently
`mode_to_str` on any instance describing a non-symlink file type
(symlink flag present and falsy, some other type flag truthy) always
raises KeyError when it reaches `d['user_read']`. -/
theorem C9_user_read_keyerror (st : FileMetaData) (vr vb vc vd vl vf : PyVal)
    (hr : fmdGetitem st "is_regular" = .ok vr)
    (hb : fmdGetitem st "is_block_device" = .ok vb)
    (hc : fmdGetitem st "is_character_device" = .ok vc)
    (hd : fmdGetitem st "is_directory" = .ok vd)
    (hl : fmdGetitem st "is_symlink" = .ok vl)
    (hf : fmdGetitem st "is_fifo" = .ok vf)
    (hnotsym : truthy vl = false)
    (hsome : (truthy vr || truthy vb || truthy vc || truthy vd || truthy vf)
      = true) :
    fmdGetitem st "user_read" = .error .keyError ∧
    mode_to_str st = .error .keyError := by
  have hnotin : "user_read" ∉ propnames := by decide
  have huread : fmdGetitem st "user_read" = .error .keyError := by
    rw [fmdGetitem, if_neg hnotin]
  refine ⟨huread, ?_⟩
  have hvl : truthy vl ≠ true := by
    rw [hnotsym]
    exact Bool.false_ne_true
  have htc : ∃ c, typeChar st = .ok c := by
    rw [typeChar]
    simp only [hr, hb, hc, hd, hl, hf, bind, Except.bind]
    by_cases h1 : truthy vr = true
    · exact ⟨"-", by rw [if_pos h1]⟩
    · rw [if_neg h1]
      by_cases h2 : truthy vb = true
      · exact ⟨"b", by rw [if_pos h2]⟩
      · rw [if_neg h2]
        by_cases h3 : truthy vc = true
        · exact ⟨"c", by rw [if_pos h3]⟩
        · rw [if_neg h3]
          by_cases h4 : truthy vd = true
          · exact ⟨"d", by rw [if_pos h4]⟩
          · rw [if_neg h4, if_neg hvl]
            by_cases h5 : truthy vf = true
            · exact ⟨"p", by rw [if_pos h5]⟩
            · exfalso
              simp only [Bool.or_eq_true] at hsome
              rcases hsome with ((((hx | hx) | hx) | hx) | hx)
              · exact h1 hx
              · exact h2 hx
              · exact h3 hx
              · exact h4 hx
              · exact h5 hx
  obtain ⟨c, hcv⟩ := htc
  rw [mode_to_str]
  simp only [hcv, hl, huread, permBit, bind, Except.bind]
  rw [if_neg hvl]

/-- C9 witness: on the concrete regular-file instance, both the
'user_read' item lookup and mode_to_str raise KeyError. -/
theorem C9_user_read_keyerror_witness :
    fmdGetitem fmdRegular "user_read" = .error .keyError ∧
    mode_to_str fmdRegular = .error .keyError :=
  C9_user_read_keyerror fmdRegular (.vBool true) (.vBool false) (.vBool false)
    (.vBool false) (.vBool false) (.vBool false)
    rfl rfl rfl rfl rfl rfl rfl (by decide)

/-! Lemmas for the composed NameCrypto(DataCryptoGPG(raw)) stack. -/

theorem nameEnc_inj {E D : List Nat → List Nat → List Nat} {key : List Nat}
    (hlenE : ∀ b, b.length = 16 → (E (key.take 16) b).length = 16)
    (hbytesE : ∀ b, b.length = 16 → (∀ x ∈ b, x < 256) →
      ∀ x ∈ E (key.take 16) b, x < 256)
    (hinv : ∀ b, b.length = 16 → D (key.take 16) (E (key.take 16) b) = b)
    {n1 n2 : List Nat}
    (h1 : 1 ≤ n1.length) (h1' : n1.length < 2 ^ 31) (h1b : ∀ x ∈ n1, x < 256)
    (h2 : 1 ≤ n2.length) (h2' : n2.length < 2 ^ 31) (h2b : ∀ x ∈ n2, x < 256)
    (heq : nameEnc E key n1 = nameEnc E key n2) : n1 = n2 := by
  have d1 := nameDec_nameEnc (E := E) (D := D) n1 hlenE hbytesE hinv h1b h1'
  have d2 := nameDec_nameEnc (E := E) (D := D) n2 hlenE hbytesE hinv h2b h2'
  rw [if_pos (by omega)] at d1 d2
  have : Except.ok (ε := PyErr) n1 = Except.ok n2 := by
    rw [← d1, ← d2, heq]
  exact Except.ok.inj this

theorem dlookup_none_append {ν : Type} :
    ∀ (d1 d2 : List (List Nat × ν)) (k : List Nat),
      dlookup d1 k = Option.none → dlookup (d1 ++ d2) k = dlookup d2 k := by
  intro d1
  induction d1 with
  | nil => intro d2 k _; rfl
  | cons p rest ih =>
      intro d2 k h
      rw [dlookup] at h
      rw [List.cons_append, dlookup]
      by_cases hk : k = p.1
      · rw [if_pos hk] at h
        cases h
      · rw [if_neg hk] at h ⊢
        exact ih d2 k h

theorem dictSet_append_of_absent {ν : Type} :
    ∀ (d : List (List Nat × ν)) (k : List Nat) (v : ν),
      dlookup d k = Option.none → dictSet d k v = d ++ [(k, v)] := by
  intro d
  induction d with
  | nil => intro k v _; rfl
  | cons p rest ih =>
      intro k v h
      obtain ⟨a, b⟩ := p
      rw [dlookup] at h
      rw [dictSet]
      by_cases hk : k = a
      · rw [if_pos hk] at h
        cases h
      · rw [if_neg hk] at h
        rw [if_neg (fun hc : a = k => hk hc.symm), ih k v h, List.cons_append]

theorem composed_fold {E gpgE : List Nat → List Nat → List Nat} {nk ck : List Nat} :
    ∀ (pairs st : List (List Nat × List Nat)),
      (∀ p ∈ pairs, dlookup st (nameEnc E nk p.1) = Option.none) →
      (pairs.map fun p => nameEnc E nk p.1).Nodup →
      pairs.foldl (fun st p => ncPut E gpgE nk ck st p.1 p.2) st
        = st ++ (pairs.map fun p => (nameEnc E nk p.1, gpgE ck p.2)) := by
  intro pairs
  induction pairs with
  | nil => intro st _ _; simp
  | cons p rest ih =>
      intro st habs hnd
      rw [List.map_cons, List.nodup_cons] at hnd
      rw [List.foldl_cons]
      have hput : ncPut E gpgE nk ck st p.1 p.2
          = st ++ [(nameEnc E nk p.1, gpgE ck p.2)] := by
        rw [ncPut, dgPut, rawPut,
          dictSet_append_of_absent st _ _ (habs p (by simp))]
      rw [hput, ih _ ?_ hnd.2, List.map_cons, List.append_assoc, List.cons_append,
        List.nil_append]
      intro q hq
      rw [dlookup_none_append st _ _ (habs q (by simp [hq])), dlookup]
      rw [if_neg]
      · rfl
      · intro hc
        exact hnd.1 (hc ▸ List.mem_map.2 ⟨q, hq, rfl⟩)

theorem dlookup_enc_map {E gpgE : List Nat → List Nat → List Nat}
    {nk ck : List Nat} :
    ∀ (pairs : List (List Nat × List Nat)) (p : List Nat × List Nat),
      p ∈ pairs → (pairs.map fun q => nameEnc E nk q.1).Nodup →
      dlookup (pairs.map fun q => (nameEnc E nk q.1, gpgE ck q.2))
          (nameEnc E nk p.1)
        = some (gpgE ck p.2) := by
  intro pairs
  induction pairs with
  | nil => intro p hm; cases hm
  | cons q0 rest ih =>
      intro p hm hnd
      rw [List.map_cons, List.nodup_cons] at hnd
      rw [List.map_cons, dlookup]
      rcases List.mem_cons.1 hm with hm | hm
      · subst hm
        rw [if_pos rfl]
      · by_cases heq : nameEnc E nk p.1 = nameEnc E nk q0.1
        · exfalso
          exact hnd.1 (heq ▸ List.mem_map.2 ⟨p, hm, rfl⟩)
        · rw [if_neg heq]
          exact ih p hm hnd.2

theorem listDecAll_enc {E D : List Nat → List Nat → List Nat} {nk : List Nat}
    (hlenE : ∀ b, b.length = 16 → (E (nk.take 16) b).length = 16)
    (hbytesE : ∀ b, b.length = 16 → (∀ x ∈ b, x < 256) →
      ∀ x ∈ E (nk.take 16) b, x < 256)
    (hinv : ∀ b, b.length = 16 → D (nk.take 16) (E (nk.take 16) b) = b) :
    ∀ (names : List (List Nat)),
      (∀ n ∈ names, 1 ≤ n.length ∧ n.length < 2 ^ 31 ∧ ∀ x ∈ n, x < 256) →
      listDecAll D nk (names.map (nameEnc E nk)) = .ok names := by
  intro names
  induction names with
  | nil => intro _; rfl
  | cons n rest ih =>
      intro hv
      have hn := hv n (by simp)
      rw [List.map_cons, listDecAll]
      rw [nameDec_nameEnc (E := E) (D := D) n hlenE hbytesE hinv hn.2.2 hn.2.1,
        if_pos (by omega)]
      rw [ih fun m hm => hv m (by simp [hm])]

/-- C4: in the composed stack NameCrypto(DataCryptoGPG(raw)) that
`get_backend_factory` builds for an s3 URI, a sequence of put
operations (distinct, valid plaintext names) leaves the raw backend
holding exactly the encrypted-hex names paired with the
gpg-encrypted contents — the raw layer never sees a plaintext name or
plaintext content — while `get` of each stored name and `list` of the
stacked backend return the plaintext content and plaintext names to
the caller. -/
theorem C4_composed_stack
    (E D gpgE gpgD : List Nat → List Nat → List Nat) (nk ck : List Nat)
    (hlenE : ∀ b, b.length = 16 → (E (nk.take 16) b).length = 16)
    (hbytesE : ∀ b, b.length = 16 → (∀ x ∈ b, x < 256) →
      ∀ x ∈ E (nk.take 16) b, x < 256)
    (hinv : ∀ b, b.length = 16 → D (nk.take 16) (E (nk.take 16) b) = b)
    (hgpg : ∀ d, gpgD ck (gpgE ck d) = d)
    (pairs : List (List Nat × List Nat))
    (hnames : ∀ p ∈ pairs,
      1 ≤ p.1.length ∧ p.1.length < 2 ^ 31 ∧ ∀ x ∈ p.1, x < 256)
    (hnodup : (pairs.map Prod.fst).Nodup) :
    composedState E gpgE nk ck pairs
        = pairs.map (fun p => (nameEnc E nk p.1, gpgE ck p.2)) ∧
    (∀ p ∈ pairs, ncGet E gpgD nk ck (composedState E gpgE nk ck pairs) p.1
        = .ok p.2) ∧
    ncList D nk (composedState E gpgE nk ck pairs)
        = .ok (pairs.map Prod.fst) := by
  have hencnd : (pairs.map fun p => nameEnc E nk p.1).Nodup := by
    have hmm : (pairs.map fun p => nameEnc E nk p.1)
        = (pairs.map Prod.fst).map (nameEnc E nk) := by
      rw [List.map_map]
      rfl
    rw [hmm]
    refine hnodup.map_on ?_
    intro x hx y hy hxy
    rcases List.mem_map.1 hx with ⟨px, hpx, hex⟩
    rcases List.mem_map.1 hy with ⟨py, hpy, hey⟩
    have hvx := hnames px hpx
    have hvy := hnames py hpy
    subst hex
    subst hey
    exact nameEnc_inj hlenE hbytesE hinv hvx.1 hvx.2.1 hvx.2.2
      hvy.1 hvy.2.1 hvy.2.2 hxy
  have hstate : composedState E gpgE nk ck pairs
      = pairs.map fun p => (nameEnc E nk p.1, gpgE ck p.2) := by
    rw [composedState, composed_fold pairs [] (fun p _ => rfl) hencnd,
      List.nil_append]
  refine ⟨hstate, ?_, ?_⟩
  · intro p hp
    rw [hstate, ncGet, dgGet, rawGet, dlookup_enc_map pairs p hp hencnd]
    dsimp only
    rw [hgpg]
  · rw [hstate, ncList, dgList, rawList]
    have hm1 : (pairs.map fun q => (nameEnc E nk q.1, gpgE ck q.2)).map (·.1)
        = (pairs.map Prod.fst).map (nameEnc E nk) := by
      rw [List.map_map, List.map_map]
      rfl
    rw [hm1]
    exact listDecAll_enc hlenE hbytesE hinv (pairs.map Prod.fst)
      (fun n hn => by
        rcases List.mem_map.1 hn with ⟨p, hp, he⟩
        exact he ▸ hnames p hp)

theorem gpgXor_inv (k : List Nat) : ∀ d, gpgXor k (gpgXor k d) = d := by
  intro d
  rw [gpgXor, gpgXor, List.map_map]
  have hid : ((fun x => x ^^^ k.headD 0) ∘ fun x => x ^^^ k.headD 0)
      = fun x : Nat => x := by
    funext x
    simp only [Function.comp]
    rw [Nat.xor_cancel_right]
  rw [hid]
  exact List.map_id d

/-- C4 witness: the composed-stack theorem applied to one put of name
"a" with content [5, 6], with the xor instance ciphers for both
layers keyed from the same secret. -/
theorem C4_composed_stack_witness :
    composedState xorCipher gpgXor keyA keyA [([97], [5, 6])]
        = [(nameEnc xorCipher keyA [97], gpgXor keyA [5, 6])] ∧
    ncGet xorCipher gpgXor keyA keyA
        (composedState xorCipher gpgXor keyA keyA [([97], [5, 6])]) [97]
      = .ok [5, 6] ∧
    ncList xorCipher keyA
        (composedState xorCipher gpgXor keyA keyA [([97], [5, 6])])
      = .ok [[97]] := by
  have h := C4_composed_stack xorCipher xorCipher gpgXor gpgXor keyA keyA
    (fun b hb => xorCipher_len (by decide) b hb)
    (fun b hb hbB => xorCipher_bytes
      (fun x hx => (by decide : ∀ y ∈ keyA, y < 256) x (List.mem_of_mem_take hx))
      b hb hbB)
    (fun b hb => xorCipher_inv (by decide) b hb)
    (gpgXor_inv keyA)
    [([97], [5, 6])] (by decide) (by decide)
  exact ⟨h.1, h.2.1 ([97], [5, 6]) (by decide), h.2.2⟩

/-- C4 counterexample: the claim's unqualified "every put … every
get/list returns plaintext" is false on the code.  After a put of the
EMPTY name through the composed stack, the raw backend does hold the
encrypted pair (and even `get('')` still returns the plaintext
content, since both sides encrypt the looked-up name), but `list`
must decrypt the stored ciphertext name: its decoded length prefix is
0, the `0 < l` check in `NameCrypto.__dec` fails, and `list` raises
instead of returning the plaintext name list `['']`. -/
theorem C4_composed_stack_cex :
    composedState xorCipher gpgXor keyA keyA [([], [5, 6])]
        = [(nameEnc xorCipher keyA [], gpgXor keyA [5, 6])] ∧
    ncGet xorCipher gpgXor keyA keyA
        (composedState xorCipher gpgXor keyA keyA [([], [5, 6])]) []
      = .ok [5, 6] ∧
    ncList xorCipher keyA
        (composedState xorCipher gpgXor keyA keyA [([], [5, 6])])
      = .error .cryptoFail ∧
    (Except.error .cryptoFail
      ≠ (.ok [[]] : Except PyErr (List (List Nat)))) :=
  ⟨rfl, rfl, rfl, by decide⟩
